import Mathlib

/-
  Verification of the corpus-cleaner pipeline (src/filters/mod.rs, src/processor.rs).

  Shallow embedding notes:
  * serde_json::Value is embedded as the inductive `Json`; object maps are kept as
    association lists in textual order (duplicate keys are kept; `Json.get` returns the
    first match, which coincides with serde for all records without duplicate keys).
  * Floating-point JSON numbers are outside the model; `Json.num` carries an integer,
    which covers every record the claims mention.
  * The SHA-256 digest of a signature is abstracted to the signature string itself
    (the hash is injective for the purposes of the claims, and the seen-set is keyed
    one-to-one by it); DashMap<[u8; 32], ()> becomes a list of claimed signatures.
  * serde_json::from_str / to_writer are embedded as `decode` / `encode`
    (recursive-descent parser and printer over the same grammar).
  * Sequential per-file processing is `processLines`; the two separate shared-state
    operations inside Deduplicator::is_unique (contains_key, then insert) are
    additionally modelled at their real granularity by `raceStep`, so that thread
    interleavings of the run can be examined.
-/

inductive Json where
  | null
  | bool (b : Bool)
  | num (n : Int)
  | str (s : String)
  | arr (elems : List Json)
  | obj (fields : List (String × Json))
deriving Repr

/-- Opening curly brace character (written via its code point). -/
def lbrace : Char := Char.ofNat 123

/-- Closing curly brace character (written via its code point). -/
def rbrace : Char := Char.ofNat 125

/-- First-match association-list lookup over an object's fields,
modelling serde_json map indexing. -/
def lookupField : List (String × Json) → String → Option Json
  | [], _ => none
  | (k, v) :: fs, key => if k = key then some v else lookupField fs key

/-- Models serde_json Value::get(&str): a key lookup on objects, None on
every other variant. -/
def Json.get (j : Json) (key : String) : Option Json :=
  match j with
  | .obj fs => lookupField fs key
  | _ => none

/-- Models the leading-zero / sign rules of serde_json pointer array-index
parsing: reject a leading plus, reject 0-prefixed multi-digit tokens,
otherwise parse an all-digit token. -/
def parseIndexTok (t : List Char) : Option Nat :=
  match t with
  | [] => none
  | c :: cs =>
    if c = '+' then none
    else if c = '0' && !cs.isEmpty then none
    else if (c :: cs).all Char.isDigit then
      some ((c :: cs).foldl (fun a d => a * 10 + (d.toNat - 48)) 0)
    else none

/-- Splits the part of a JSON pointer after the leading slash at every
slash, mirroring split('/') on the remainder. -/
def splitSlash : List Char → List (List Char)
  | [] => [[]]
  | c :: cs =>
    if c = '/' then [] :: splitSlash cs
    else
      match splitSlash cs with
      | t :: ts => (c :: t) :: ts
      | [] => [[c]]

/-- Token unescaping of JSON pointers: tilde-one becomes a slash and
tilde-zero becomes a tilde (one pass, equivalent to the two sequential
replaces serde performs). -/
def unescapeTok : List Char → List Char
  | [] => []
  | '~' :: '1' :: cs => '/' :: unescapeTok cs
  | '~' :: '0' :: cs => '~' :: unescapeTok cs
  | c :: cs => c :: unescapeTok cs

/-- Walks a token path: objects by key, arrays by parsed index, any other
variant ends the walk with None. -/
def pointerWalk : Json → List (List Char) → Option Json
  | j, [] => some j
  | j, t :: ts =>
    match j with
    | .obj fs =>
      match lookupField fs (String.mk t) with
      | some v => pointerWalk v ts
      | none => none
    | .arr xs =>
      match parseIndexTok t with
      | some i =>
        match xs.get? i with
        | some v => pointerWalk v ts
        | none => none
      | none => none
    | _ => none

/-- Models serde_json Value::pointer: empty pointer returns the value,
a pointer not starting with a slash returns None, otherwise the
slash-separated unescaped tokens are walked. -/
def Json.pointer (j : Json) (ptr : String) : Option Json :=
  match ptr.data with
  | [] => some j
  | c :: cs =>
    if c = '/' then pointerWalk j ((splitSlash cs).map unescapeTok)
    else none

/-- Mirrors StatusFilter::keep (src/filters/mod.rs lines 59-69): keep when
pointer /meta/err is null or absent, drop when it is present and non-null. -/
def StatusFilter.keep (tx : Json) : Bool :=
  match tx.pointer "/meta/err" with
  | some Json.null => true
  | some _ => false
  | none => true

/-- Mirrors SpamFilter::keep (src/filters/mod.rs lines 76-84): the stub
keeps every record regardless of the threshold parameter. -/
def SpamFilter.keep (min_lamports : Nat) (tx : Json) : Bool :=
  (fun _ _ => true) min_lamports tx

/-- Mirrors Utf8Filter::keep (src/filters/mod.rs lines 89-98): the stub
keeps every record. -/
def Utf8Filter.keep (tx : Json) : Bool :=
  (fun _ => true) tx

/-- The Deduplicator's shared DashMap, with the SHA-256 digest of a
signature abstracted to the signature string (see the header note). -/
structure Deduplicator where
  seen : List String
deriving Repr

/-- Mirrors Deduplicator::new. -/
def Deduplicator.new : Deduplicator := ⟨[]⟩

/-- Mirrors Deduplicator::is_unique (src/filters/mod.rs lines 116-133) as
one sequential step: extract the signature (a record without a string
signature yields false), then contains_key followed by insert. The pair
of map operations is NOT atomic in the source; raceStep below keeps them
separate so interleavings can be examined. -/
def Deduplicator.is_unique (d : Deduplicator) (tx : Json) : Bool × Deduplicator :=
  match tx.get "signature" with
  | some (Json.str s) =>
    if d.seen.contains s then (false, d)
    else (true, ⟨d.seen ++ [s]⟩)
  | _ => (false, d)

/-- Mirrors the Pipeline struct: stateless filter chain plus an optional
shared Deduplicator. -/
structure Pipeline where
  filters : List (Json → Bool)
  deduplicator : Option Deduplicator

/-- Mirrors Pipeline::new. -/
def Pipeline.new : Pipeline := ⟨[], none⟩

/-- Mirrors Pipeline::add_filter. -/
def Pipeline.add_filter (p : Pipeline) (f : Json → Bool) : Pipeline :=
  { p with filters := p.filters ++ [f] }

/-- Mirrors Pipeline::with_deduplication. -/
def Pipeline.with_deduplication (p : Pipeline) (d : Deduplicator) : Pipeline :=
  { p with deduplicator := some d }

/-- The source's filter loop: return false at the first filter that drops. -/
def runFilters : List (Json → Bool) → Json → Bool
  | [], _ => true
  | f :: fs, tx => if f tx then runFilters fs tx else false

/-- Mirrors Pipeline::process (src/filters/mod.rs lines 35-51): stateless
filters first, then the deduplicator if one is configured. -/
def Pipeline.process (p : Pipeline) (tx : Json) : Bool × Pipeline :=
  if runFilters p.filters tx then
    match p.deduplicator with
    | some d =>
      match d.is_unique tx with
      | (ok, d') => (ok, { p with deduplicator := some d' })
    | none => (true, p)
  else (false, p)

/-- Models line.trim().is_empty(): a line is blank when all its characters
are whitespace. -/
def blankLine (line : String) : Bool := line.data.all Char.isWhitespace

/-- JSON whitespace accepted between tokens. -/
def isWsChar (c : Char) : Bool := c = ' ' || c = '\t' || c = '\n' || c = '\r'

/-- Drops leading JSON whitespace. -/
def skipWs (cs : List Char) : List Char := cs.dropWhile isWsChar

/-- Hexadecimal digit value, accepting both letter cases. -/
def hexValOf (c : Char) : Option Nat :=
  if c.isDigit then some (c.toNat - 48)
  else if 97 ≤ c.toNat && c.toNat ≤ 102 then some (c.toNat - 87)
  else if 65 ≤ c.toNat && c.toNat ≤ 70 then some (c.toNat - 55)
  else none

/-- Single-character string escapes of JSON. -/
def escCharOf (e : Char) : Option Char :=
  if e = '"' then some '"'
  else if e = '\\' then some '\\'
  else if e = '/' then some '/'
  else if e = 'b' then some (Char.ofNat 8)
  else if e = 'f' then some (Char.ofNat 12)
  else if e = 'n' then some '\n'
  else if e = 'r' then some (Char.ofNat 13)
  else if e = 't' then some '\t'
  else none

/-- String-body parser: consumes characters up to the closing quote,
handling escapes, and rejecting raw control characters as JSON demands.
Returns the unescaped content and the remainder after the quote. -/
def parseStrBody : List Char → Option (List Char × List Char)
  | [] => none
  | c :: cs =>
    if c = '"' then some ([], cs)
    else if c = '\\' then
      match cs with
      | [] => none
      | e :: cs2 =>
        if e = 'u' then
          match cs2 with
          | h1 :: h2 :: h3 :: h4 :: cs3 =>
            match hexValOf h1, hexValOf h2, hexValOf h3, hexValOf h4 with
            | some a, some b, some c1, some d =>
              if (a * 4096 + b * 256 + c1 * 16 + d).isValidChar then
                (parseStrBody cs3).map
                  (fun r => (Char.ofNat (a * 4096 + b * 256 + c1 * 16 + d) :: r.1, r.2))
              else none
            | _, _, _, _ => none
          | _ => none
        else
          match escCharOf e with
          | some ch => (parseStrBody cs2).map (fun r => (ch :: r.1, r.2))
          | none => none
    else if c.toNat < 32 then none
    else (parseStrBody cs).map (fun r => (c :: r.1, r.2))

/-- Big-endian decimal digit accumulation. -/
def digitsToNat (ds : List Char) : Nat := ds.foldl (fun a c => a * 10 + (c.toNat - 48)) 0

/-- Natural-number parser with the JSON leading-zero rule: a leading 0 is
the whole number, otherwise digits are taken greedily. -/
def parseNatCore : List Char → Option (Nat × List Char)
  | [] => none
  | c :: r =>
    if c = '0' then some (0, r)
    else if c.isDigit then
      some (digitsToNat ((c :: r).takeWhile Char.isDigit), (c :: r).dropWhile Char.isDigit)
    else none

/-- Integer parser: optional minus sign, then a natural number. -/
def parseNum (cs : List Char) : Option (Int × List Char) :=
  match cs with
  | [] => none
  | c :: r =>
    if c = '-' then (parseNatCore r).map (fun p => (-(p.1 : Int), p.2))
    else (parseNatCore (c :: r)).map (fun p => ((p.1 : Int), p.2))

mutual
/-- Fuel-indexed recursive-descent JSON value parser (the fuel only bounds
nesting-related recursion; 2 * length + 2 always suffices for decode). -/
def parseV : Nat → List Char → Option (Json × List Char)
  | 0, _ => none
  | f + 1, cs0 =>
    match skipWs cs0 with
    | [] => none
    | c :: cs =>
      if c = 'n' then
        match cs with
        | 'u' :: 'l' :: 'l' :: rest => some (Json.null, rest)
        | _ => none
      else if c = 't' then
        match cs with
        | 'r' :: 'u' :: 'e' :: rest => some (Json.bool true, rest)
        | _ => none
      else if c = 'f' then
        match cs with
        | 'a' :: 'l' :: 's' :: 'e' :: rest => some (Json.bool false, rest)
        | _ => none
      else if c = '"' then
        (parseStrBody cs).map (fun r => (Json.str (String.mk r.1), r.2))
      else if c = '[' then
        (parseElems f cs).map (fun r => (Json.arr r.1, r.2))
      else if c = lbrace then
        (parseFieldsHead f cs).map (fun r => (Json.obj r.1, r.2))
      else
        (parseNum (c :: cs)).map (fun r => (Json.num r.1, r.2))

/-- Array body: either an immediate closing bracket or a comma-separated
element list (no trailing comma, as in JSON). -/
def parseElems : Nat → List Char → Option (List Json × List Char)
  | 0, _ => none
  | f + 1, cs0 =>
    match skipWs cs0 with
    | [] => none
    | c :: cs =>
      if c = ']' then some ([], cs)
      else parseElemsLoop f (c :: cs)

/-- Array element loop: value, then comma (more elements) or closing
bracket. -/
def parseElemsLoop : Nat → List Char → Option (List Json × List Char)
  | 0, _ => none
  | f + 1, cs0 =>
    match parseV f cs0 with
    | none => none
    | some (x, r) =>
      match skipWs r with
      | [] => none
      | c :: r2 =>
        if c = ',' then
          match parseElemsLoop f r2 with
          | some (xs, r3) => some (x :: xs, r3)
          | none => none
        else if c = ']' then some ([x], r2)
        else none

/-- Object body: either an immediate closing brace or a comma-separated
member list. -/
def parseFieldsHead : Nat → List Char → Option (List (String × Json) × List Char)
  | 0, _ => none
  | f + 1, cs0 =>
    match skipWs cs0 with
    | [] => none
    | c :: cs =>
      if c = rbrace then some ([], cs)
      else parseFieldsLoop f (c :: cs)

/-- Object member loop: quoted key, colon, value, then comma or closing
brace. -/
def parseFieldsLoop : Nat → List Char → Option (List (String × Json) × List Char)
  | 0, _ => none
  | f + 1, cs0 =>
    match skipWs cs0 with
    | [] => none
    | c :: cs =>
      if c = '"' then
        match parseStrBody cs with
        | none => none
        | some (k, r1) =>
          match skipWs r1 with
          | [] => none
          | c2 :: r2 =>
            if c2 = ':' then
              match parseV f r2 with
              | none => none
              | some (v, r3) =>
                match skipWs r3 with
                | [] => none
                | c3 :: r4 =>
                  if c3 = ',' then
                    match parseFieldsLoop f r4 with
                    | some (fs, r5) => some ((String.mk k, v) :: fs, r5)
                    | none => none
                  else if c3 = rbrace then some ([(String.mk k, v)], r4)
                  else none
            else none
      else none
end

/-- Models serde_json::from_str::<Value> on one line: parse a single value
and require that only whitespace remains. -/
def decode (line : String) : Option Json :=
  match parseV (2 * line.data.length + 2) line.data with
  | some (v, rest) => if skipWs rest = [] then some v else none
  | none => none

/-- Escape of one character inside a printed JSON string: quote and
backslash get a backslash escape, control characters a \u00XX escape,
everything else is emitted as-is. -/
def escapeChar (c : Char) : List Char :=
  if c = '"' then ['\\', '"']
  else if c = '\\' then ['\\', '\\']
  else if c.toNat < 32 then
    ['\\', 'u', '0', '0',
     Char.ofNat (if c.toNat / 16 < 10 then 48 + c.toNat / 16 else 87 + c.toNat / 16),
     Char.ofNat (if c.toNat % 16 < 10 then 48 + c.toNat % 16 else 87 + c.toNat % 16)]
  else [c]

/-- Escapes a whole string body. -/
def escBody : List Char → List Char
  | [] => []
  | c :: cs => escapeChar c ++ escBody cs

/-- Decimal digits of a natural number (fuel-driven; n + 1 fuel always
suffices), most significant first. -/
def natToCharsGo : Nat → Nat → List Char
  | 0, _ => []
  | f + 1, n =>
    if n < 10 then [Char.ofNat (48 + n)]
    else natToCharsGo f (n / 10) ++ [Char.ofNat (48 + n % 10)]

/-- Decimal digits of a natural number. -/
def natToChars (n : Nat) : List Char := natToCharsGo (n + 1) n

/-- Prints an integer in decimal. -/
def printIntChars (n : Int) : List Char :=
  if n < 0 then '-' :: natToChars n.natAbs else natToChars n.natAbs

/-- Prints a JSON string literal with quotes and escapes. -/
def printStrChars (s : String) : List Char := '"' :: escBody s.data ++ ['"']

mutual
/-- Compact JSON printer, modelling serde_json::to_writer of a Value
followed by the newline the processor appends (the newline itself is kept
out of the printed value). -/
def printChars : Json → List Char
  | .null => "null".data
  | .bool true => "true".data
  | .bool false => "false".data
  | .num n => printIntChars n
  | .str s => printStrChars s
  | .arr xs => '[' :: printElemsChars xs
  | .obj fs => lbrace :: printFieldsChars fs

/-- Prints array elements comma-separated, closing the bracket. -/
def printElemsChars : List Json → List Char
  | [] => [']']
  | [x] => printChars x ++ [']']
  | x :: y :: xs => printChars x ++ ',' :: printElemsChars (y :: xs)

/-- Prints object members comma-separated, closing the brace. -/
def printFieldsChars : List (String × Json) → List Char
  | [] => [rbrace]
  | [(k, v)] => printStrChars k ++ ':' :: printChars v ++ [rbrace]
  | (k, v) :: g :: fs => printStrChars k ++ ':' :: printChars v ++ ',' :: printFieldsChars (g :: fs)
end

/-- Models encoding a record back to one output line. -/
def encode (v : Json) : String := String.mk (printChars v)

/-- Per-file processing loop of process_file (src/processor.rs lines
115-134): skip blank lines, skip undecodable lines, run the pipeline on
each decoded record, and append admitted records to the output in order.
Returns the output records, the admitted count, and the final pipeline
state (carrying the shared deduplicator). -/
def processLines : Pipeline → List String → List Json × Nat × Pipeline
  | p, [] => ([], 0, p)
  | p, line :: rest =>
    if blankLine line then processLines p rest
    else
      match decode line with
      | some tx =>
        match Pipeline.process p tx with
        | (true, p') =>
          match processLines p' rest with
          | (out, n, p2) => (tx :: out, n + 1, p2)
        | (false, p') => processLines p' rest
      | none => processLines p rest

/-- Mirrors process_file (src/processor.rs lines 92-138): build the
pipeline (StatusFilter plus the shared deduplicator) and stream the
file's lines through it. -/
def process_file (dedup : Deduplicator) (lines : List String) : List Json × Nat × Deduplicator :=
  match processLines ((Pipeline.new.add_filter StatusFilter.keep).with_deduplication dedup) lines with
  | (out, n, p') =>
    (out, n, match p'.deduplicator with | some d => d | none => dedup)

/-- Sequentialized multi-file run of run_processing: the deduplicator is
the only state threaded between files. -/
def runFiles : Deduplicator → List (List String) → List (List Json × Nat) × Deduplicator
  | d, [] => ([], d)
  | d, file :: rest =>
    match process_file d file with
    | (out, n, d') =>
      match runFiles d' rest with
      | (outs, d2) => ((out, n) :: outs, d2)

/-- Progress of one concurrent is_unique invocation, at the granularity of
its shared-map operations: not yet reached the contains_key call, past a
negative contains_key and about to insert, or returned. -/
inductive TaskStatus where
  | ready (tx : Json)
  | willInsert (sig : String)
  | finished (result : Bool)
deriving Repr

/-- Shared DashMap plus the per-worker control points. -/
structure RaceState where
  seen : List String
  tasks : List TaskStatus
deriving Repr

/-- DashMap insert of a unit value: a set insertion (inserting a present
key only replaces the unit value). -/
def addSeen (seen : List String) (s : String) : List String :=
  if seen.contains s then seen else seen ++ [s]

/-- One atomic shared-map operation of worker i, following the source of
is_unique exactly: first the contains_key test (returning false
immediately when the key is present or the signature is missing or not a
string), then, as a separate operation, the insert followed by returning
true. -/
def raceStep (st : RaceState) (i : Nat) : RaceState :=
  match st.tasks.get? i with
  | some (TaskStatus.ready tx) =>
    match tx.get "signature" with
    | some (Json.str s) =>
      if st.seen.contains s then { st with tasks := st.tasks.set i (TaskStatus.finished false) }
      else { st with tasks := st.tasks.set i (TaskStatus.willInsert s) }
    | _ => { st with tasks := st.tasks.set i (TaskStatus.finished false) }
  | some (TaskStatus.willInsert s) =>
    { seen := addSeen st.seen s, tasks := st.tasks.set i (TaskStatus.finished true) }
  | _ => st

/-- Runs concurrent is_unique invocations (one per record) under a given
interleaving of their shared-map operations, from an empty seen-set. -/
def raceRun (txs : List Json) (schedule : List Nat) : RaceState :=
  schedule.foldl raceStep { seen := [], tasks := txs.map TaskStatus.ready }

/-- Sequential repeated claims against one deduplicator, in call order. -/
def claimAll : Deduplicator → List Json → List Bool × Deduplicator
  | d, [] => ([], d)
  | d, tx :: rest =>
    match d.is_unique tx with
    | (r, d') =>
      match claimAll d' rest with
      | (rs, d2) => (r :: rs, d2)

/-- The decodable records of a file's lines, in order: blank lines are not
decode attempts and undecodable lines yield nothing. -/
def decodables (lines : List String) : List Json :=
  lines.filterMap (fun l => if blankLine l then none else decode l)

/-- Record used in concrete examples: signature x. -/
def txSigX : Json := Json.obj [("signature", Json.str "x")]

/-- Spec example line: record with signature a and a null error. -/
def exLineA : String := "\x7b\"signature\":\"a\",\"meta\":\x7b\"err\":null\x7d\x7d"

/-- Decoded form of exLineA. -/
def exTxA : Json := Json.obj [("signature", Json.str "a"), ("meta", Json.obj [("err", Json.null)])]

/-- Spec example line: record with signature b and a non-null error. -/
def exLineB : String := "\x7b\"signature\":\"b\",\"meta\":\x7b\"err\":\x7b\"code\":1\x7d\x7d\x7d"

/-- Decoded form of exLineB. -/
def exTxB : Json := Json.obj [("signature", Json.str "b"),
  ("meta", Json.obj [("err", Json.obj [("code", Json.num 1)])])]

/-- Spec example line: record with signature c and no meta at all. -/
def exLineC : String := "\x7b\"signature\":\"c\"\x7d"

/-- Decoded form of exLineC. -/
def exTxC : Json := Json.obj [("signature", Json.str "c")]

/-- Record with no signature field. -/
def txNoSig : Json := Json.obj [("value", Json.num 5)]

/-- Record whose signature field is a number, not a string. -/
def txNumSig : Json := Json.obj [("signature", Json.num 7)]

/-- The pipeline process_file builds: StatusFilter plus a fresh shared
deduplicator. -/
def pStatus : Pipeline := (Pipeline.new.add_filter StatusFilter.keep).with_deduplication Deduplicator.new

/-- A non-blank line that is not valid JSON. -/
def malformedLine : String := "\x7bnot json"

/-- True when the list does not start with a decimal digit (the context
needed for the greedy number parser to stop where the printer stopped). -/
def noDigitHead (cs : List Char) : Bool :=
  match cs with
  | [] => true
  | c :: _ => !c.isDigit

/-- A claim that returned false left the deduplicator untouched. -/
theorem is_unique_false_state {d : Deduplicator} {tx : Json}
    (h : (d.is_unique tx).1 = false) : (d.is_unique tx).2 = d := by
  cases htx : tx.get "signature" with
  | none => simp [Deduplicator.is_unique, htx]
  | some v =>
    cases v with
    | str s =>
      simp only [Deduplicator.is_unique, htx] at h ⊢
      cases hcon : d.seen.contains s with
      | true => simp
      | false => rw [hcon] at h; simp at h
    | null => simp [Deduplicator.is_unique, htx]
    | bool b => simp [Deduplicator.is_unique, htx]
    | num n => simp [Deduplicator.is_unique, htx]
    | arr xs => simp [Deduplicator.is_unique, htx]
    | obj fs => simp [Deduplicator.is_unique, htx]

/-- A claim that returned true extracted a string signature absent from
the seen-set and appended it. -/
theorem is_unique_true_spec {d : Deduplicator} {tx : Json}
    (h : (d.is_unique tx).1 = true) :
    ∃ s, tx.get "signature" = some (Json.str s) ∧
      (d.is_unique tx).2.seen = d.seen ++ [s] ∧ s ∉ d.seen := by
  cases htx : tx.get "signature" with
  | none => simp [Deduplicator.is_unique, htx] at h
  | some v =>
    cases v with
    | str s =>
      simp only [Deduplicator.is_unique, htx] at h ⊢
      cases hcon : d.seen.contains s with
      | true => rw [hcon] at h; simp at h
      | false =>
        refine ⟨s, rfl, by simp, by simpa using hcon⟩
    | null => simp [Deduplicator.is_unique, htx] at h
    | bool b => simp [Deduplicator.is_unique, htx] at h
    | num n => simp [Deduplicator.is_unique, htx] at h
    | arr xs => simp [Deduplicator.is_unique, htx] at h
    | obj fs => simp [Deduplicator.is_unique, htx] at h

/-- Without a string signature the claim is a drop and a no-op. -/
theorem is_unique_no_str {d : Deduplicator} {tx : Json}
    (h : ∀ s, tx.get "signature" ≠ some (Json.str s)) :
    d.is_unique tx = (false, d) := by
  unfold Deduplicator.is_unique
  cases htx : tx.get "signature" with
  | none => rfl
  | some v =>
    cases v with
    | str s => exact absurd htx (h s)
    | null => rfl
    | bool b => rfl
    | num n => rfl
    | arr xs => rfl
    | obj fs => rfl

/-- The filter loop rejects as soon as one filter in the chain drops. -/
theorem runFilters_false {fs : List (Json → Bool)} {tx : Json}
    (h : ∃ f ∈ fs, f tx = false) : runFilters fs tx = false := by
  induction fs with
  | nil => simp at h
  | cons g gs ih =>
    rcases h with ⟨f, hf, hfx⟩
    rcases List.mem_cons.mp hf with h1 | h2
    · subst h1; simp [runFilters, hfx]
    · by_cases hg : g tx
      · simpa [runFilters, hg] using ih ⟨f, h2, hfx⟩
      · simp [runFilters, hg]

/-- A record dropped by a stateless filter makes process return false with
the pipeline (hence the seen-set) unchanged. -/
theorem process_filters_drop {p : Pipeline} {tx : Json}
    (h : ∃ f ∈ p.filters, f tx = false) : p.process tx = (false, p) := by
  unfold Pipeline.process
  rw [runFilters_false h]
  simp

/-- Shape of process on a pipeline with a deduplicator. -/
theorem process_some_dedup (fs : List (Json → Bool)) (d : Deduplicator) (tx : Json) :
    Pipeline.process ⟨fs, some d⟩ tx =
      if runFilters fs tx
      then ((d.is_unique tx).1, ⟨fs, some (d.is_unique tx).2⟩)
      else (false, ⟨fs, some d⟩) := by
  unfold Pipeline.process
  by_cases h : runFilters fs tx <;> simp [h]

/-- Induction workhorse for per-file processing with a deduplicating
pipeline: the filters are unchanged, the final seen-set is the starting
one extended by exactly the signatures of the admitted records, the count
equals the output length, and every admitted record carries a string
signature. -/
theorem processLines_master (fs : List (Json → Bool)) (lines : List String) :
    ∀ d : Deduplicator,
      ∃ d' : Deduplicator,
        (processLines ⟨fs, some d⟩ lines).2.2 = ⟨fs, some d'⟩ ∧
        (processLines ⟨fs, some d⟩ lines).2.1 = (processLines ⟨fs, some d⟩ lines).1.length ∧
        (∀ s, s ∈ d.seen → s ∈ d'.seen) ∧
        (∀ s, s ∈ d'.seen ↔
          s ∈ d.seen ∨
            ∃ tx ∈ (processLines ⟨fs, some d⟩ lines).1,
              tx.get "signature" = some (Json.str s)) ∧
        (∀ tx ∈ (processLines ⟨fs, some d⟩ lines).1,
          ∃ s, tx.get "signature" = some (Json.str s)) := by
  induction lines with
  | nil =>
    intro d
    exact ⟨d, rfl, rfl, fun s h => h, fun s => by simp [processLines], by simp [processLines]⟩
  | cons line rest ih =>
    intro d
    by_cases hb : blankLine line
    · have heq : processLines ⟨fs, some d⟩ (line :: rest) = processLines ⟨fs, some d⟩ rest := by
        simp only [processLines, hb, eq_self_iff_true, if_true]
      rw [heq]
      exact ih d
    · cases hdec : decode line with
      | none =>
        have heq : processLines ⟨fs, some d⟩ (line :: rest) = processLines ⟨fs, some d⟩ rest := by
          simp only [processLines, hb, Bool.false_eq_true, if_false, hdec]
        rw [heq]
        exact ih d
      | some tx =>
        by_cases hrf : runFilters fs tx
        · cases hok : (d.is_unique tx).1 with
          | true =>
            obtain ⟨s0, hs0, hseen, hnot⟩ := is_unique_true_spec hok
            obtain ⟨d', h1, h2, h3, h4, h5⟩ := ih (d.is_unique tx).2
            have heq : processLines ⟨fs, some d⟩ (line :: rest) =
                (tx :: (processLines ⟨fs, some (d.is_unique tx).2⟩ rest).1,
                 (processLines ⟨fs, some (d.is_unique tx).2⟩ rest).2.1 + 1,
                 (processLines ⟨fs, some (d.is_unique tx).2⟩ rest).2.2) := by
              rcases hres : processLines ⟨fs, some (d.is_unique tx).2⟩ rest with ⟨out, n, p2⟩
              simp only [processLines, hb, Bool.false_eq_true, if_false, hdec,
                process_some_dedup, hrf, eq_self_iff_true, if_true, hok, hres]
            rw [heq]
            refine ⟨d', h1, ?_, ?_, ?_, ?_⟩
            · simpa using h2
            · intro s hs
              exact h3 s (by rw [hseen]; exact List.mem_append_left _ hs)
            · intro s
              rw [h4 s, hseen]
              constructor
              · rintro (hmem | ⟨tx2, htx2, hsig2⟩)
                · rcases List.mem_append.mp hmem with hl | hr
                  · exact Or.inl hl
                  · have hss : s = s0 := List.mem_singleton.mp hr
                    subst hss
                    exact Or.inr ⟨tx, List.mem_cons_self _ _, hs0⟩
                · exact Or.inr ⟨tx2, List.mem_cons_of_mem _ htx2, hsig2⟩
              · rintro (hmem | ⟨tx2, htx2, hsig2⟩)
                · exact Or.inl (List.mem_append_left _ hmem)
                · rcases List.mem_cons.mp htx2 with he | ht
                  · subst he
                    have hss : s0 = s := Json.str.inj (Option.some.inj (hs0.symm.trans hsig2))
                    subst hss
                    exact Or.inl (List.mem_append_right _ (List.mem_singleton.mpr rfl))
                  · exact Or.inr ⟨tx2, ht, hsig2⟩
            · intro tx2 htx2
              rcases List.mem_cons.mp htx2 with he | ht
              · subst he; exact ⟨s0, hs0⟩
              · exact h5 tx2 ht
          | false =>
            have hst := is_unique_false_state hok
            have heq : processLines ⟨fs, some d⟩ (line :: rest) =
                processLines ⟨fs, some d⟩ rest := by
              simp only [processLines, hb, Bool.false_eq_true, if_false, hdec,
                process_some_dedup, hrf, eq_self_iff_true, if_true, hok, hst]
            rw [heq]
            exact ih d
        · have heq : processLines ⟨fs, some d⟩ (line :: rest) =
              processLines ⟨fs, some d⟩ rest := by
            simp only [processLines, hb, Bool.false_eq_true, if_false, hdec,
              process_some_dedup, hrf]
          rw [heq]
          exact ih d

/-- The output of per-file processing is a subsequence of the file's
decodable records, in order. -/
theorem processLines_sublist (lines : List String) :
    ∀ p : Pipeline, List.Sublist (processLines p lines).1 (decodables lines) := by
  induction lines with
  | nil => intro p; simp [processLines, decodables]
  | cons line rest ih =>
    intro p
    by_cases hb : blankLine line
    · have heq : processLines p (line :: rest) = processLines p rest := by
        simp only [processLines, hb, eq_self_iff_true, if_true]
      have hdq : decodables (line :: rest) = decodables rest := by
        simp only [decodables, List.filterMap_cons, hb, eq_self_iff_true, if_true]
      rw [heq, hdq]
      exact ih p
    · cases hdec : decode line with
      | none =>
        have heq : processLines p (line :: rest) = processLines p rest := by
          simp only [processLines, hb, Bool.false_eq_true, if_false, hdec]
        have hdq : decodables (line :: rest) = decodables rest := by
          simp only [decodables, List.filterMap_cons, hb, Bool.false_eq_true, if_false, hdec]
        rw [heq, hdq]
        exact ih p
      | some tx =>
        have hdq : decodables (line :: rest) = tx :: decodables rest := by
          simp only [decodables, List.filterMap_cons, hb, Bool.false_eq_true, if_false, hdec]
        rw [hdq]
        cases hpr : Pipeline.process p tx with
        | mk ok p' =>
          cases ok with
          | true =>
            have heq : processLines p (line :: rest) =
                (tx :: (processLines p' rest).1,
                 (processLines p' rest).2.1 + 1,
                 (processLines p' rest).2.2) := by
              rcases hres : processLines p' rest with ⟨out, n, p2⟩
              simp only [processLines, hb, Bool.false_eq_true, if_false, hdec, hpr, hres]
            rw [heq]
            exact List.Sublist.cons₂ tx (ih p')
          | false =>
            have heq : processLines p (line :: rest) = processLines p' rest := by
              simp only [processLines, hb, Bool.false_eq_true, if_false, hdec, hpr]
            rw [heq]
            exact List.Sublist.cons tx (ih p')

/-- process_file projected onto its deduplicator: count equals output
length, the seen-set only grows, it grows by exactly the admitted
signatures, and every admitted record has a string signature. -/
theorem process_file_spec (d : Deduplicator) (lines : List String) :
    (process_file d lines).2.1 = (process_file d lines).1.length ∧
    (∀ s, s ∈ d.seen → s ∈ (process_file d lines).2.2.seen) ∧
    (∀ s, s ∈ (process_file d lines).2.2.seen ↔
      s ∈ d.seen ∨ ∃ tx ∈ (process_file d lines).1, tx.get "signature" = some (Json.str s)) ∧
    (∀ tx ∈ (process_file d lines).1, ∃ s, tx.get "signature" = some (Json.str s)) := by
  obtain ⟨d', h1, h2, h3, h4, h5⟩ := processLines_master [StatusFilter.keep] lines d
  rcases hres : processLines ⟨[StatusFilter.keep], some d⟩ lines with ⟨out, n, p'⟩
  rw [hres] at h1 h2 h4 h5
  dsimp only at h1 h2 h4 h5
  have hpf : process_file d lines = (out, n, d') := by
    unfold process_file
    rw [show (Pipeline.new.add_filter StatusFilter.keep).with_deduplication d =
        (⟨[StatusFilter.keep], some d⟩ : Pipeline) from rfl, hres, h1]
  rw [hpf]
  dsimp only
  refine ⟨h2, ?_, h4, h5⟩
  intro s hs
  have := (h4 s).mpr (Or.inl hs)
  exact this

/-- Run-level composition: the final seen-set of a sequential multi-file
run is the starting one plus the signatures of all admitted records of
all files. -/
theorem runFiles_spec (files : List (List String)) :
    ∀ d : Deduplicator,
      (∀ s, s ∈ d.seen → s ∈ (runFiles d files).2.seen) ∧
      (∀ s, s ∈ (runFiles d files).2.seen ↔
        s ∈ d.seen ∨ ∃ entry ∈ (runFiles d files).1, ∃ tx ∈ entry.1,
          tx.get "signature" = some (Json.str s)) := by
  induction files with
  | nil => intro d; exact ⟨fun s h => h, fun s => by simp [runFiles]⟩
  | cons file rest ih =>
    intro d
    obtain ⟨m1, m2, m3, m4⟩ := process_file_spec d file
    rcases hres : process_file d file with ⟨out, n, d1⟩
    rw [hres] at m2 m3
    dsimp only at m2 m3
    have heq : runFiles d (file :: rest) =
        ((out, n) :: (runFiles d1 rest).1, (runFiles d1 rest).2) := by
      rcases hrr : runFiles d1 rest with ⟨outs, d2⟩
      simp only [runFiles, hres, hrr]
    obtain ⟨r1, r2⟩ := ih d1
    rw [heq]
    dsimp only
    constructor
    · intro s hs
      exact r1 s (m2 s hs)
    · intro s
      rw [r2 s, m3 s]
      constructor
      · rintro ((hd | ⟨tx, htx, hsig⟩) | ⟨entry, hentry, tx, htx, hsig⟩)
        · exact Or.inl hd
        · exact Or.inr ⟨(out, n), List.mem_cons_self _ _, tx, htx, hsig⟩
        · exact Or.inr ⟨entry, List.mem_cons_of_mem _ hentry, tx, htx, hsig⟩
      · rintro (hd | ⟨entry, hentry, tx, htx, hsig⟩)
        · exact Or.inl (Or.inl hd)
        · rcases List.mem_cons.mp hentry with he | ht
          · subst he; exact Or.inl (Or.inr ⟨tx, htx, hsig⟩)
          · exact Or.inr ⟨entry, ht, tx, htx, hsig⟩

/-- Once a signature is in the seen-set, every later claim of it returns
false and leaves the deduplicator unchanged. -/
theorem claimAll_all_false {s : String} (txs : List Json) :
    ∀ d : Deduplicator,
      (∀ tx ∈ txs, tx.get "signature" = some (Json.str s)) →
      d.seen.contains s = true →
      (claimAll d txs).1 = List.replicate txs.length false ∧ (claimAll d txs).2 = d := by
  induction txs with
  | nil => intro d _ _; exact ⟨rfl, rfl⟩
  | cons tx rest ih =>
    intro d hall hs
    have hsig : tx.get "signature" = some (Json.str s) := hall tx (List.mem_cons_self _ _)
    have hmem : s ∈ d.seen := by simpa using hs
    have hu : d.is_unique tx = (false, d) := by
      unfold Deduplicator.is_unique
      rw [hsig]
      simp [hmem]
    have heq : claimAll d (tx :: rest) =
        ((claimAll d rest).1.cons false, (claimAll d rest).2) := by
      rcases hrec : claimAll d rest with ⟨rs, d2⟩
      simp only [claimAll, hu, hrec]
    obtain ⟨ih1, ih2⟩ := ih d (fun t ht => hall t (List.mem_cons_of_mem _ ht)) hs
    rw [heq]
    dsimp only
    rw [ih1, ih2]
    exact ⟨by simp [List.replicate_succ], rfl⟩

/-- The admitted output of process_file is a subsequence of the file's
decodable records. -/
theorem process_file_sublist (d : Deduplicator) (lines : List String) :
    List.Sublist (process_file d lines).1 (decodables lines) := by
  have h := processLines_sublist lines
    ((Pipeline.new.add_filter StatusFilter.keep).with_deduplication d)
  have e : (process_file d lines).1 =
      (processLines ((Pipeline.new.add_filter StatusFilter.keep).with_deduplication d) lines).1 := by
    unfold process_file
    rcases processLines ((Pipeline.new.add_filter StatusFilter.keep).with_deduplication d) lines
      with ⟨out, n, p'⟩
    rfl
  rw [e]
  exact h

/-- C1: the claim states that under concurrent invocation of the claim
operation from several workers with the same Identity, exactly one call
returns true (an indivisible test-and-insert). The code violates this:
is_unique performs contains_key and insert as two separate DashMap
operations, so when two workers both claim signature x and both
contains_key calls run before either insert (interleaving 0,1,0,1), both
calls return true and the duplicate is admitted twice. This theorem
evaluates the source-granularity model at that interleaving. -/
theorem C1_race_both_claims_return_true :
    (raceRun [txSigX, txSigX] [0, 1, 0, 1]).tasks =
      [TaskStatus.finished true, TaskStatus.finished true] ∧
    (raceRun [txSigX, txSigX] [0, 1, 0, 1]).seen = ["x"] := ⟨rfl, rfl⟩

/-- C2: sequentially claiming any nonempty sequence of records sharing
one Identity against a fresh deduplication engine returns true for the
first call and false for every subsequent call. -/
theorem C2_claim_idempotent (s : String) (txs : List Json) (hne : txs ≠ [])
    (hall : ∀ tx ∈ txs, tx.get "signature" = some (Json.str s)) :
    (claimAll Deduplicator.new txs).1 = true :: List.replicate (txs.length - 1) false := by
  cases txs with
  | nil => exact absurd rfl hne
  | cons tx rest =>
    have hsig : tx.get "signature" = some (Json.str s) := hall tx (List.mem_cons_self _ _)
    have hu : Deduplicator.new.is_unique tx = (true, ⟨[s]⟩) := by
      unfold Deduplicator.is_unique Deduplicator.new
      rw [hsig]
      simp
    obtain ⟨ih1, _⟩ := claimAll_all_false rest ⟨[s]⟩
      (fun t ht => hall t (List.mem_cons_of_mem _ ht)) (by simp)
    have heq : claimAll Deduplicator.new (tx :: rest) =
        ((claimAll ⟨[s]⟩ rest).1.cons true, (claimAll ⟨[s]⟩ rest).2) := by
      rcases hrec : claimAll (⟨[s]⟩ : Deduplicator) rest with ⟨rs, d2⟩
      simp only [claimAll, hu, hrec]
    rw [heq]
    dsimp only
    rw [ih1]
    simp

/-- Witness for C2: three records with signature x give true, false,
false. -/
theorem C2_witness :
    ([txSigX, txSigX, txSigX] ≠ ([] : List Json)) ∧
    (claimAll Deduplicator.new [txSigX, txSigX, txSigX]).1 =
      true :: List.replicate ([txSigX, txSigX, txSigX].length - 1) false := by
  refine ⟨by simp, C2_claim_idempotent "x" _ (by simp) ?_⟩
  intro tx htx
  rcases List.mem_cons.mp htx with h | htx2
  · subst h; rfl
  · rcases List.mem_cons.mp htx2 with h | htx3
    · subst h; rfl
    · rcases List.mem_cons.mp htx3 with h | htx4
      · subst h; rfl
      · simp at htx4

/-- C3: a digest is in the seen-set iff some record with the
corresponding Identity has been admitted, and the seen-set grows
monotonically: per file, final membership holds iff the signature was
already present or some admitted output record of that file carries it;
nothing is ever removed; and over a whole run from the empty set,
membership holds iff some record in some output file carries the
signature. -/
theorem C3_seen_set_invariant :
    (∀ (d : Deduplicator) (lines : List String) (s : String),
      s ∈ (process_file d lines).2.2.seen ↔
        s ∈ d.seen ∨ ∃ tx ∈ (process_file d lines).1,
          tx.get "signature" = some (Json.str s)) ∧
    (∀ (d : Deduplicator) (lines : List String) (s : String),
      s ∈ d.seen → s ∈ (process_file d lines).2.2.seen) ∧
    (∀ (files : List (List String)) (s : String),
      s ∈ (runFiles Deduplicator.new files).2.seen ↔
        ∃ entry ∈ (runFiles Deduplicator.new files).1, ∃ tx ∈ entry.1,
          tx.get "signature" = some (Json.str s)) := by
  refine ⟨?_, ?_, ?_⟩
  · intro d lines s
    exact (process_file_spec d lines).2.2.1 s
  · intro d lines s hs
    exact (process_file_spec d lines).2.1 s hs
  · intro files s
    have h := (runFiles_spec files Deduplicator.new).2 s
    simpa [Deduplicator.new] using h

/-- Witness for C3: monotonicity applied at a concrete seen-set. -/
theorem C3_witness :
    ("x" ∈ (Deduplicator.mk ["x"]).seen) ∧
    "x" ∈ (process_file (Deduplicator.mk ["x"]) []).2.2.seen := by
  refine ⟨by simp, C3_seen_set_invariant.2.1 (Deduplicator.mk ["x"]) [] "x" (by simp)⟩

/-- C4: a record with no signature field is dropped: the claim operation
returns false and leaves the deduplicator unchanged, the pipeline rejects
the record no matter which stateless filters are configured, and the
record never appears in any file's output. -/
theorem C4_missing_identity_drop (d : Deduplicator) (tx : Json)
    (h : tx.get "signature" = none) :
    d.is_unique tx = (false, d) ∧
    (∀ fs : List (Json → Bool), Pipeline.process ⟨fs, some d⟩ tx = (false, ⟨fs, some d⟩)) ∧
    (∀ (d2 : Deduplicator) (lines : List String), tx ∉ (process_file d2 lines).1) := by
  have hns : ∀ s, tx.get "signature" ≠ some (Json.str s) := by
    intro s hcontra
    rw [h] at hcontra
    exact Option.noConfusion hcontra
  have hu : d.is_unique tx = (false, d) := is_unique_no_str hns
  refine ⟨hu, ?_, ?_⟩
  · intro fs
    rw [process_some_dedup]
    by_cases hrf : runFilters fs tx
    · simp [hrf, hu]
    · simp [hrf]
  · intro d2 lines hmem
    obtain ⟨s, hs⟩ := (process_file_spec d2 lines).2.2.2 tx hmem
    exact hns s hs

/-- Witness for C4 at a record with no signature field. -/
theorem C4_witness :
    txNoSig.get "signature" = none ∧
    Deduplicator.new.is_unique txNoSig = (false, Deduplicator.new) ∧
    Pipeline.process ⟨[StatusFilter.keep], some Deduplicator.new⟩ txNoSig =
      (false, ⟨[StatusFilter.keep], some Deduplicator.new⟩) ∧
    txNoSig ∉ (process_file Deduplicator.new [exLineC]).1 := by
  obtain ⟨w1, w2, w3⟩ := C4_missing_identity_drop Deduplicator.new txNoSig rfl
  exact ⟨rfl, w1, w2 [StatusFilter.keep], w3 Deduplicator.new [exLineC]⟩

/-- C5: the validity filter keeps a record iff its /meta/err field is
null or absent, and the three concrete spec examples decode and evaluate
accordingly (null error kept, object error dropped, missing meta kept). -/
theorem C5_validity_filter :
    (∀ tx : Json, StatusFilter.keep tx = true ↔
      (tx.pointer "/meta/err" = some Json.null ∨ tx.pointer "/meta/err" = none)) ∧
    decode exLineA = some exTxA ∧ StatusFilter.keep exTxA = true ∧
    decode exLineB = some exTxB ∧ StatusFilter.keep exTxB = false ∧
    decode exLineC = some exTxC ∧ StatusFilter.keep exTxC = true := by
  refine ⟨?_, rfl, rfl, rfl, rfl, rfl, rfl⟩
  intro tx
  unfold StatusFilter.keep
  cases h : tx.pointer "/meta/err" with
  | none => simp
  | some v => cases v <;> simp

/-- C6: the admitted records written for one input file form a
subsequence of that file's decodable records, in the same relative
order. -/
theorem C6_order_preservation (d : Deduplicator) (lines : List String) :
    List.Sublist (process_file d lines).1 (decodables lines) :=
  process_file_sublist d lines

/-- C7: a file with N decodable lines and M malformed lines interleaved
produces at most N admitted records, and each malformed non-blank line
is skipped with no effect: processing it is identical to processing the
remaining lines (count not incremented, no error surfaced). -/
theorem C7_malformed_tolerance :
    (∀ (d : Deduplicator) (lines : List String),
      (process_file d lines).2.1 ≤ (decodables lines).length) ∧
    (∀ (p : Pipeline) (l : String) (rest : List String),
      blankLine l = false → decode l = none →
      processLines p (l :: rest) = processLines p rest) := by
  constructor
  · intro d lines
    rw [(process_file_spec d lines).1]
    exact (process_file_sublist d lines).length_le
  · intro p l rest hb hdec
    simp only [processLines, hb, Bool.false_eq_true, if_false, hdec]

/-- Witness for C7 at one malformed and one valid line. -/
theorem C7_witness :
    (process_file Deduplicator.new [malformedLine, exLineC]).2.1 ≤
      (decodables [malformedLine, exLineC]).length ∧
    blankLine malformedLine = false ∧ decode malformedLine = none ∧
    processLines Pipeline.new [malformedLine] = processLines Pipeline.new [] := by
  exact ⟨C7_malformed_tolerance.1 Deduplicator.new _, rfl, rfl,
    C7_malformed_tolerance.2 Pipeline.new malformedLine [] rfl rfl⟩

/-- C8: the pipeline evaluates the stateless filters first; a record
dropped by any stateless filter makes process return false with the
whole pipeline state, including the shared seen-set, unchanged. -/
theorem C8_filters_first_frame (p : Pipeline) (tx : Json)
    (h : ∃ f ∈ p.filters, f tx = false) :
    p.process tx = (false, p) :=
  process_filters_drop h

/-- Witness for C8: the StatusFilter drops the error record and the
deduplicating pipeline is left unchanged. -/
theorem C8_witness :
    (∃ f ∈ pStatus.filters, f exTxB = false) ∧
    pStatus.process exTxB = (false, pStatus) := by
  have hmem : StatusFilter.keep ∈ pStatus.filters := by
    simp [pStatus, Pipeline.new, Pipeline.add_filter, Pipeline.with_deduplication]
  have hh : ∃ f ∈ pStatus.filters, f exTxB = false := ⟨StatusFilter.keep, hmem, rfl⟩
  exact ⟨hh, C8_filters_first_frame pStatus exTxB hh⟩

/-- C10: a record whose signature field is present but not a JSON string
is dropped: the claim operation returns false leaving the seen-set
unchanged, the pipeline rejects the record, the record never appears in
any output, and every claim that returns true did so for a string
signature. -/
theorem C10_nonstring_signature (d : Deduplicator) (tx : Json) (v : Json)
    (hv : tx.get "signature" = some v) (hns : ∀ s, v ≠ Json.str s) :
    d.is_unique tx = (false, d) ∧
    (∀ fs : List (Json → Bool), Pipeline.process ⟨fs, some d⟩ tx = (false, ⟨fs, some d⟩)) ∧
    (∀ (d2 : Deduplicator) (lines : List String), tx ∉ (process_file d2 lines).1) ∧
    (∀ (d2 : Deduplicator) (tx2 : Json), (d2.is_unique tx2).1 = true →
      ∃ s, tx2.get "signature" = some (Json.str s)) := by
  have hnstr : ∀ s, tx.get "signature" ≠ some (Json.str s) := by
    intro s hcontra
    rw [hv] at hcontra
    exact hns s (Option.some.inj hcontra)
  have hu : d.is_unique tx = (false, d) := is_unique_no_str hnstr
  refine ⟨hu, ?_, ?_, ?_⟩
  · intro fs
    rw [process_some_dedup]
    by_cases hrf : runFilters fs tx
    · simp [hrf, hu]
    · simp [hrf]
  · intro d2 lines hmem
    obtain ⟨s, hs⟩ := (process_file_spec d2 lines).2.2.2 tx hmem
    exact hnstr s hs
  · intro d2 tx2 htrue
    obtain ⟨s, hs, _, _⟩ := is_unique_true_spec htrue
    exact ⟨s, hs⟩

/-- Witness for C10 at a record whose signature is the number 7. -/
theorem C10_witness :
    txNumSig.get "signature" = some (Json.num 7) ∧
    Deduplicator.new.is_unique txNumSig = (false, Deduplicator.new) ∧
    Pipeline.process ⟨[StatusFilter.keep], some Deduplicator.new⟩ txNumSig =
      (false, ⟨[StatusFilter.keep], some Deduplicator.new⟩) := by
  obtain ⟨w1, w2, _, _⟩ := C10_nonstring_signature Deduplicator.new txNumSig (Json.num 7) rfl
    (fun s hcontra => Json.noConfusion hcontra)
  exact ⟨rfl, w1, w2 [StatusFilter.keep]⟩

/-- Rebuilding a string from its character list is the identity. -/
theorem string_mk_data (s : String) : String.mk s.data = s := by cases s; rfl

/-- skipWs does not touch a list starting with a non-whitespace
character. -/
theorem skipWs_cons {c : Char} (cs : List Char) (h : isWsChar c = false) :
    skipWs (c :: cs) = c :: cs := by
  simp [skipWs, List.dropWhile_cons, h]

/-- The character printed for one decimal digit is that digit. -/
theorem digit_char_spec (m : Nat) (h : m < 10) :
    (Char.ofNat (48 + m)).isDigit = true ∧ (Char.ofNat (48 + m)).toNat = 48 + m := by
  interval_cases m <;> exact ⟨by decide, by decide⟩

/-- A digit character is not whitespace and differs from every parser
dispatch character. -/
theorem digit_head_facts {c : Char} (h48 : 48 ≤ c.toNat) (h57 : c.toNat ≤ 57) :
    isWsChar c = false ∧ ¬(c = 'n') ∧ ¬(c = 't') ∧ ¬(c = 'f') ∧ ¬(c = '"') ∧
      ¬(c = '[') ∧ ¬(c = lbrace) ∧ ¬(c = ']') := by
  refine ⟨?_, ?_, ?_, ?_, ?_, ?_, ?_, ?_⟩
  · simp only [isWsChar, Bool.or_eq_false_iff, decide_eq_false_iff_not]
    refine ⟨⟨⟨?_, ?_⟩, ?_⟩, ?_⟩ <;> (intro hc; subst hc; revert h48 h57; decide)
  · intro hc; subst hc; revert h48 h57; decide
  · intro hc; subst hc; revert h48 h57; decide
  · intro hc; subst hc; revert h48 h57; decide
  · intro hc; subst hc; revert h48 h57; decide
  · intro hc; subst hc; revert h48 h57; decide
  · intro hc; subst hc; revert h48 h57; decide
  · intro hc; subst hc; revert h48 h57; decide

/-- Value, digit-range, and nonemptiness of the fuel-driven decimal
printer. -/
theorem natToCharsGo_spec (f : Nat) :
    ∀ n a, n < f →
      List.foldl (fun a c => a * 10 + (c.toNat - 48)) a (natToCharsGo f n) =
        a * 10 ^ (natToCharsGo f n).length + n ∧
      (∀ c ∈ natToCharsGo f n, 48 ≤ c.toNat ∧ c.toNat ≤ 57 ∧ c.isDigit = true) ∧
      natToCharsGo f n ≠ [] := by
  induction f with
  | zero => intro n a h; omega
  | succ f ih =>
    intro n a h
    by_cases hn : n < 10
    · have hd := digit_char_spec n hn
      refine ⟨?_, ?_, ?_⟩
      · simp only [natToCharsGo, hn, if_true, List.foldl_cons, List.foldl_nil,
          List.length_cons, List.length_nil, hd.2, pow_one]
        omega
      · intro c hc
        simp only [natToCharsGo, hn, if_true, List.mem_singleton] at hc
        subst hc
        refine ⟨?_, ?_, hd.1⟩ <;> rw [hd.2] <;> omega
      · simp [natToCharsGo, hn]
    · have hdiv : n / 10 < f := by omega
      obtain ⟨ihv, ihd, ihne⟩ := ih (n / 10) a hdiv
      have hd := digit_char_spec (n % 10) (by omega)
      refine ⟨?_, ?_, ?_⟩
      · simp only [natToCharsGo, hn, if_false, List.foldl_append, List.foldl_cons,
          List.foldl_nil, List.length_append, List.length_cons, List.length_nil, hd.2]
        rw [ihv]
        have hdm : 10 * (n / 10) + n % 10 = n := Nat.div_add_mod n 10
        calc (a * 10 ^ (natToCharsGo f (n / 10)).length + n / 10) * 10 + (48 + n % 10 - 48)
            = a * (10 ^ (natToCharsGo f (n / 10)).length * 10) + (10 * (n / 10) + n % 10) := by
              ring_nf; omega
          _ = a * 10 ^ ((natToCharsGo f (n / 10)).length + (0 + 1)) + n := by
              rw [pow_succ]; omega
      · intro c hc
        simp only [natToCharsGo, hn, if_false, List.mem_append, List.mem_singleton] at hc
        rcases hc with hc | hc
        · exact ihd c hc
        · subst hc
          refine ⟨?_, ?_, hd.1⟩ <;> rw [hd.2] <;> omega
      · simp only [natToCharsGo, hn, if_false]
        intro hcontra
        exact (List.append_ne_nil_of_right_ne_nil _ (by simp)) hcontra

/-- For a positive number the printed digits do not start with zero. -/
theorem natToCharsGo_head (f : Nat) :
    ∀ n, n < f → 0 < n → ∃ c t, natToCharsGo f n = c :: t ∧ ¬(c = '0') := by
  induction f with
  | zero => intro n h; omega
  | succ f ih =>
    intro n h hpos
    by_cases hn : n < 10
    · refine ⟨Char.ofNat (48 + n), [], by simp [natToCharsGo, hn], ?_⟩
      interval_cases n <;> decide
    · obtain ⟨c, t, hct, hc0⟩ := ih (n / 10) (by omega) (by omega)
      exact ⟨c, t ++ [Char.ofNat (48 + n % 10)], by simp [natToCharsGo, hn, hct], hc0⟩

/-- The decimal printer's output: folds back to the number, contains only
digits, and is nonempty. -/
theorem natToChars_spec (n : Nat) :
    List.foldl (fun a c => a * 10 + (c.toNat - 48)) 0 (natToChars n) = n ∧
    (∀ c ∈ natToChars n, 48 ≤ c.toNat ∧ c.toNat ≤ 57 ∧ c.isDigit = true) ∧
    natToChars n ≠ [] := by
  have h := natToCharsGo_spec (n + 1) n 0 (by omega)
  simpa [natToChars] using h

/-- takeWhile and dropWhile split an all-digit prefix followed by a
non-digit head exactly at the boundary. -/
theorem takeWhile_digits_append (l r : List Char)
    (hl : ∀ c ∈ l, c.isDigit = true) (hr : noDigitHead r = true) :
    (l ++ r).takeWhile Char.isDigit = l ∧ (l ++ r).dropWhile Char.isDigit = r := by
  induction l with
  | nil =>
    simp only [List.nil_append]
    cases r with
    | nil => simp
    | cons c cs =>
      simp only [noDigitHead, Bool.not_eq_true'] at hr
      simp [List.takeWhile_cons, List.dropWhile_cons, hr]
  | cons c l' ih =>
    have hc : c.isDigit = true := hl c (List.mem_cons_self _ _)
    obtain ⟨ih1, ih2⟩ := ih (fun x hx => hl x (List.mem_cons_of_mem _ hx))
    simp [List.takeWhile_cons, List.dropWhile_cons, hc, ih1, ih2]

/-- The natural-number parser inverts the decimal printer in any context
that does not continue with a digit. -/
theorem parseNatCore_print (m : Nat) (rest : List Char) (hr : noDigitHead rest = true) :
    parseNatCore (natToChars m ++ rest) = some (m, rest) := by
  obtain ⟨hval, hdig, hne⟩ := natToChars_spec m
  by_cases hm : m = 0
  · subst hm
    have h0 : natToChars 0 = ['0'] := by decide
    rw [h0]
    simp [parseNatCore]
  · obtain ⟨c, t, hct, hc0⟩ := natToCharsGo_head (m + 1) m (by omega) (by omega)
    have hct' : natToChars m = c :: t := hct
    have hb := hdig c (by rw [hct']; exact List.mem_cons_self _ _)
    rw [hct']
    show parseNatCore (c :: (t ++ rest)) = some (m, rest)
    unfold parseNatCore
    dsimp only
    rw [if_neg hc0, if_pos hb.2.2]
    have hsplit := takeWhile_digits_append (c :: t) rest
      (fun x hx => (hdig x (by rw [hct']; exact hx)).2.2) hr
    rw [show c :: (t ++ rest) = (c :: t) ++ rest from rfl, hsplit.1, hsplit.2]
    have hdv : digitsToNat (c :: t) = m := by
      unfold digitsToNat
      rw [← hct']
      exact hval
    rw [hdv]

/-- The integer parser inverts the integer printer in any context that
does not continue with a digit. -/
theorem parseNum_print (n : Int) (rest : List Char) (hr : noDigitHead rest = true) :
    parseNum (printIntChars n ++ rest) = some (n, rest) := by
  by_cases hneg : n < 0
  · have hpr : printIntChars n = '-' :: natToChars n.natAbs := by
      simp [printIntChars, hneg]
    rw [hpr]
    show parseNum ('-' :: (natToChars n.natAbs ++ rest)) = some (n, rest)
    unfold parseNum
    dsimp only
    rw [if_pos rfl, parseNatCore_print n.natAbs rest hr]
    show some (-((n.natAbs : Int)), rest) = some (n, rest)
    rw [show -((n.natAbs : Int)) = n from by omega]
  · have hpr : printIntChars n = natToChars n.natAbs := by
      simp [printIntChars, hneg]
    obtain ⟨hval, hdig, hne⟩ := natToChars_spec n.natAbs
    rcases hcs : natToChars n.natAbs with _ | ⟨c, t⟩
    · exact absurd hcs hne
    · have hb := hdig c (by rw [hcs]; exact List.mem_cons_self _ _)
      have hcm : ¬(c = '-') := by
        intro hc
        subst hc
        revert hb
        decide
      rw [hpr, hcs]
      show parseNum (c :: (t ++ rest)) = some (n, rest)
      unfold parseNum
      dsimp only
      rw [if_neg hcm]
      rw [show c :: (t ++ rest) = natToChars n.natAbs ++ rest from by rw [hcs]; rfl]
      rw [parseNatCore_print n.natAbs rest hr]
      show some (((n.natAbs : Int)), rest) = some (n, rest)
      rw [show ((n.natAbs : Int)) = n from by omega]

/-- The printed hexadecimal digit of a value below 16 reads back as that
value. -/
theorem hexValOf_spec (m : Nat) (h : m < 16) :
    hexValOf (Char.ofNat (if m < 10 then 48 + m else 87 + m)) = some m := by
  interval_cases m <;> decide

/-- Unescaping inverts escaping for a whole string body followed by the
closing quote. -/
theorem parseStrBody_escBody (l : List Char) :
    ∀ rest, parseStrBody (escBody l ++ ('"' :: rest)) = some (l, rest) := by
  induction l with
  | nil =>
    intro rest
    show parseStrBody ('"' :: rest) = some ([], rest)
    unfold parseStrBody
    rw [if_pos rfl]
  | cons c l' ih =>
    intro rest
    have hassoc : escBody (c :: l') ++ ('"' :: rest) =
        escapeChar c ++ (escBody l' ++ ('"' :: rest)) := by
      simp [escBody, List.append_assoc]
    rw [hassoc]
    by_cases hq : c = '"'
    · subst hq
      have hesc : escapeChar '"' = ['\\', '"'] := by decide
      rw [hesc]
      show parseStrBody ('\\' :: '"' :: (escBody l' ++ ('"' :: rest))) = some ('"' :: l', rest)
      unfold parseStrBody
      dsimp only
      rw [if_neg (by decide : ¬('\\' = '"')), if_pos rfl,
        if_neg (by decide : ¬('"' = 'u'))]
      rw [show escCharOf '"' = some '"' from rfl]
      dsimp only
      rw [ih rest]
      rfl
    · by_cases hbs : c = '\\'
      · subst hbs
        have hesc : escapeChar '\\' = ['\\', '\\'] := by decide
        rw [hesc]
        show parseStrBody ('\\' :: '\\' :: (escBody l' ++ ('"' :: rest))) = some ('\\' :: l', rest)
        unfold parseStrBody
        dsimp only
        rw [if_neg (by decide : ¬('\\' = '"')), if_pos rfl,
          if_neg (by decide : ¬('\\' = 'u'))]
        rw [show escCharOf '\\' = some '\\' from rfl]
        dsimp only
        rw [ih rest]
        rfl
      · by_cases hctl : c.toNat < 32
        · have hesc : escapeChar c = ['\\', 'u', '0', '0', Char.ofNat (48 + c.toNat / 16),
              Char.ofNat (if c.toNat % 16 < 10 then 48 + c.toNat % 16 else 87 + c.toNat % 16)] := by
            simp [escapeChar, hq, hbs, hctl, show c.toNat / 16 < 10 by omega]
          rw [hesc]
          show parseStrBody ('\\' :: 'u' :: '0' :: '0' :: Char.ofNat (48 + c.toNat / 16) ::
              Char.ofNat (if c.toNat % 16 < 10 then 48 + c.toNat % 16 else 87 + c.toNat % 16) ::
              (escBody l' ++ ('"' :: rest))) = some (c :: l', rest)
          unfold parseStrBody
          dsimp only
          rw [if_neg (by decide : ¬('\\' = '"')), if_pos rfl, if_pos rfl]
          have hhi : hexValOf (Char.ofNat (48 + c.toNat / 16)) = some (c.toNat / 16) := by
            have h := hexValOf_spec (c.toNat / 16) (by omega)
            rwa [if_pos (by omega : c.toNat / 16 < 10)] at h
          have hlo : hexValOf (Char.ofNat
              (if c.toNat % 16 < 10 then 48 + c.toNat % 16 else 87 + c.toNat % 16)) =
              some (c.toNat % 16) := hexValOf_spec (c.toNat % 16) (by omega)
          rw [show hexValOf '0' = some 0 from rfl, hhi, hlo]
          dsimp only
          rw [show 0 * 4096 + 0 * 256 + c.toNat / 16 * 16 + c.toNat % 16 = c.toNat from by omega]
          rw [if_pos (Or.inl (by omega : c.toNat < 55296) : Nat.isValidChar c.toNat)]
          rw [ih rest]
          rw [Char.ofNat_toNat]
          rfl
        · have hesc : escapeChar c = [c] := by simp [escapeChar, hq, hbs, hctl]
          rw [hesc]
          show parseStrBody (c :: (escBody l' ++ ('"' :: rest))) = some (c :: l', rest)
          unfold parseStrBody
          rw [if_neg hq, if_neg hbs, if_neg hctl]
          rw [ih rest]
          rfl

/-- A printed integer starts with a minus sign or a digit. -/
theorem printIntChars_head (n : Int) :
    ∃ c t, printIntChars n = c :: t ∧ (c = '-' ∨ (48 ≤ c.toNat ∧ c.toNat ≤ 57)) := by
  by_cases hneg : n < 0
  · exact ⟨'-', natToChars n.natAbs, by simp [printIntChars, hneg], Or.inl rfl⟩
  · obtain ⟨hval, hdig, hne⟩ := natToChars_spec n.natAbs
    rcases hcs : natToChars n.natAbs with _ | ⟨c, t⟩
    · exact absurd hcs hne
    · have hb := hdig c (by rw [hcs]; exact List.mem_cons_self _ _)
      exact ⟨c, t, by simp [printIntChars, hneg, hcs], Or.inr ⟨hb.1, hb.2.1⟩⟩

/-- A printed value starts with a character that is not whitespace and
not a closing bracket. -/
theorem printChars_head (v : Json) :
    ∃ c t, printChars v = c :: t ∧ isWsChar c = false ∧ ¬(c = ']') := by
  cases v with
  | null => exact ⟨'n', _, rfl, by decide, by decide⟩
  | bool b =>
    cases b with
    | false => exact ⟨'f', _, rfl, by decide, by decide⟩
    | true => exact ⟨'t', _, rfl, by decide, by decide⟩
  | num n =>
    obtain ⟨c, t, hct, hc⟩ := printIntChars_head n
    rcases hc with hc | ⟨h48, h57⟩
    · subst hc
      exact ⟨'-', t, by simp [printChars, hct], by decide, by decide⟩
    · obtain ⟨hws, _, _, _, _, _, _, hrb⟩ := digit_head_facts h48 h57
      exact ⟨c, t, by simp [printChars, hct], hws, hrb⟩
  | str s => exact ⟨'"', escBody s.data ++ ['"'], rfl, by decide, by decide⟩
  | arr xs => exact ⟨'[', printElemsChars xs, rfl, by decide, by decide⟩
  | obj fs => exact ⟨lbrace, printFieldsChars fs, rfl, by decide, by decide⟩

/-- Dispatch of the value parser on the null literal. -/
theorem parseV_step_null (f : Nat) (rest : List Char) :
    parseV (f + 1) ('n' :: 'u' :: 'l' :: 'l' :: rest) = some (Json.null, rest) := by
  unfold parseV
  rw [skipWs_cons _ (by decide)]
  rfl

/-- Dispatch of the value parser on the true literal. -/
theorem parseV_step_true (f : Nat) (rest : List Char) :
    parseV (f + 1) ('t' :: 'r' :: 'u' :: 'e' :: rest) = some (Json.bool true, rest) := by
  unfold parseV
  rw [skipWs_cons _ (by decide)]
  rfl

/-- Dispatch of the value parser on the false literal. -/
theorem parseV_step_false (f : Nat) (rest : List Char) :
    parseV (f + 1) ('f' :: 'a' :: 'l' :: 's' :: 'e' :: rest) = some (Json.bool false, rest) := by
  unfold parseV
  rw [skipWs_cons _ (by decide)]
  rfl

/-- Dispatch of the value parser on an opening quote. -/
theorem parseV_step_quote (f : Nat) (cs : List Char) :
    parseV (f + 1) ('"' :: cs) =
      (parseStrBody cs).map (fun r => (Json.str (String.mk r.1), r.2)) := by
  unfold parseV
  rw [skipWs_cons _ (by decide)]
  rfl

/-- Dispatch of the value parser on an opening square bracket. -/
theorem parseV_step_lbrack (f : Nat) (cs : List Char) :
    parseV (f + 1) ('[' :: cs) =
      (parseElems f cs).map (fun r => (Json.arr r.1, r.2)) := by
  unfold parseV
  rw [skipWs_cons _ (by decide)]
  rfl

/-- Dispatch of the value parser on an opening curly brace. -/
theorem parseV_step_lbrace (f : Nat) (cs : List Char) :
    parseV (f + 1) (lbrace :: cs) =
      (parseFieldsHead f cs).map (fun r => (Json.obj r.1, r.2)) := by
  unfold parseV
  rw [skipWs_cons _ (by decide)]
  rfl

/-- Dispatch of the value parser on a minus sign or digit. -/
theorem parseV_step_num (f : Nat) (c : Char) (cs : List Char)
    (hd : c = '-' ∨ (48 ≤ c.toNat ∧ c.toNat ≤ 57)) :
    parseV (f + 1) (c :: cs) = (parseNum (c :: cs)).map (fun r => (Json.num r.1, r.2)) := by
  rcases hd with hc | ⟨h48, h57⟩
  · subst hc
    unfold parseV
    rw [skipWs_cons _ (by decide)]
    rfl
  · obtain ⟨hws, hn, ht, hf, hq, hlb, hlcb, _⟩ := digit_head_facts h48 h57
    unfold parseV
    rw [skipWs_cons _ hws]
    dsimp only
    rw [if_neg hn, if_neg ht, if_neg hf, if_neg hq, if_neg hlb, if_neg hlcb]

/-- An array body that closes immediately. -/
theorem parseElems_rbrack (f : Nat) (rest : List Char) :
    parseElems (f + 1) (']' :: rest) = some ([], rest) := by
  unfold parseElems
  rw [skipWs_cons _ (by decide)]
  rfl

/-- A nonempty array body hands over to the element loop. -/
theorem parseElems_step (f : Nat) (c : Char) (cs : List Char)
    (hws : isWsChar c = false) (hc : ¬(c = ']')) :
    parseElems (f + 1) (c :: cs) = parseElemsLoop f (c :: cs) := by
  unfold parseElems
  rw [skipWs_cons _ hws]
  dsimp only
  rw [if_neg hc]

/-- An object body that closes immediately. -/
theorem parseFieldsHead_rbrace (f : Nat) (rest : List Char) :
    parseFieldsHead (f + 1) (rbrace :: rest) = some ([], rest) := by
  unfold parseFieldsHead
  rw [skipWs_cons _ (by decide)]
  dsimp only
  rw [if_pos rfl]

/-- A nonempty object body hands over to the member loop. -/
theorem parseFieldsHead_step (f : Nat) (cs : List Char) :
    parseFieldsHead (f + 1) ('"' :: cs) = parseFieldsLoop f ('"' :: cs) := by
  unfold parseFieldsHead
  rw [skipWs_cons _ (by decide)]
  dsimp only
  rw [if_neg (by decide : ¬(('"' : Char) = rbrace))]

/-- Shape of the printed form of a nonempty element list. -/
theorem printElemsChars_cons (x : Json) (xs : List Json) :
    printElemsChars (x :: xs) = printChars x ++
      (match xs with | [] => [']'] | y :: ys => ',' :: printElemsChars (y :: ys)) := by
  cases xs <;> rfl

/-- Shape of the printed form of a nonempty member list. -/
theorem printFieldsChars_cons (k : String) (v : Json) (fs : List (String × Json)) :
    printFieldsChars ((k, v) :: fs) = printStrChars k ++ ':' :: printChars v ++
      (match fs with | [] => [rbrace] | g :: gs => ',' :: printFieldsChars (g :: gs)) := by
  cases fs <;> rfl

/-- Joint parse-print inversion, by induction on parser fuel: any fuel of
at least twice the printed length parses a printed value (or element or
member list) back and leaves exactly the trailing input, provided the
trailing input does not start with a digit. -/
theorem parse_print_inversion (F : Nat) :
    (∀ v rest, 2 * (printChars v).length ≤ F → noDigitHead rest = true →
      parseV F (printChars v ++ rest) = some (v, rest)) ∧
    (∀ xs rest, 2 * (printElemsChars xs).length + 1 ≤ F →
      parseElems F (printElemsChars xs ++ rest) = some (xs, rest)) ∧
    (∀ xs rest, xs ≠ [] → 2 * (printElemsChars xs).length ≤ F →
      parseElemsLoop F (printElemsChars xs ++ rest) = some (xs, rest)) ∧
    (∀ fs rest, 2 * (printFieldsChars fs).length + 1 ≤ F →
      parseFieldsHead F (printFieldsChars fs ++ rest) = some (fs, rest)) ∧
    (∀ fs rest, fs ≠ [] → 2 * (printFieldsChars fs).length ≤ F →
      parseFieldsLoop F (printFieldsChars fs ++ rest) = some (fs, rest)) := by
  induction F with
  | zero =>
    refine ⟨?_, ?_, ?_, ?_, ?_⟩
    · intro v rest h _
      obtain ⟨c, t, hct, _, _⟩ := printChars_head v
      rw [hct] at h
      simp only [List.length_cons] at h
      omega
    · intro xs rest h
      omega
    · intro xs rest hne h
      cases xs with
      | nil => exact absurd rfl hne
      | cons x xs' =>
        rw [printElemsChars_cons] at h
        obtain ⟨c, t, hct, _, _⟩ := printChars_head x
        rw [hct] at h
        simp only [List.length_append, List.length_cons] at h
        omega
    · intro fs rest h
      omega
    · intro fs rest hne h
      cases fs with
      | nil => exact absurd rfl hne
      | cons kv fs' =>
        rcases kv with ⟨k, v⟩
        rw [printFieldsChars_cons] at h
        simp only [printStrChars, List.length_append, List.length_cons] at h
        omega
  | succ F ih =>
    obtain ⟨ihV, ihE, ihEL, ihF, ihFL⟩ := ih
    refine ⟨?_, ?_, ?_, ?_, ?_⟩
    · intro v rest hf hnd
      cases v with
      | null =>
        rw [show printChars Json.null ++ rest = 'n' :: 'u' :: 'l' :: 'l' :: rest from rfl]
        exact parseV_step_null F rest
      | bool b =>
        cases b with
        | true =>
          rw [show printChars (Json.bool true) ++ rest = 't' :: 'r' :: 'u' :: 'e' :: rest from rfl]
          exact parseV_step_true F rest
        | false =>
          rw [show printChars (Json.bool false) ++ rest =
            'f' :: 'a' :: 'l' :: 's' :: 'e' :: rest from rfl]
          exact parseV_step_false F rest
      | num n =>
        obtain ⟨c, t, hct, hc⟩ := printIntChars_head n
        rw [show printChars (Json.num n) ++ rest = c :: (t ++ rest) from by
          show printIntChars n ++ rest = _
          rw [hct]
          rfl]
        rw [parseV_step_num F c (t ++ rest) hc]
        rw [show c :: (t ++ rest) = printIntChars n ++ rest from by rw [hct]; rfl]
        rw [parseNum_print n rest hnd]
        rfl
      | str s =>
        rw [show printChars (Json.str s) ++ rest =
            '"' :: (escBody s.data ++ ('"' :: rest)) from by
          show ('"' :: (escBody s.data ++ ['"'])) ++ rest = _
          simp [List.append_assoc]]
        rw [parseV_step_quote, parseStrBody_escBody s.data rest]
        show some (Json.str (String.mk s.data), rest) = some (Json.str s, rest)
        rw [string_mk_data]
      | arr xs =>
        have hlen : (printChars (Json.arr xs)).length = (printElemsChars xs).length + 1 := by
          show ('[' :: printElemsChars xs).length = _
          simp
        rw [show printChars (Json.arr xs) ++ rest = '[' :: (printElemsChars xs ++ rest) from rfl]
        rw [parseV_step_lbrack]
        rw [ihE xs rest (by omega)]
        rfl
      | obj fs =>
        have hlen : (printChars (Json.obj fs)).length = (printFieldsChars fs).length + 1 := by
          show (lbrace :: printFieldsChars fs).length = _
          simp
        rw [show printChars (Json.obj fs) ++ rest = lbrace :: (printFieldsChars fs ++ rest) from rfl]
        rw [parseV_step_lbrace]
        rw [ihF fs rest (by omega)]
        rfl
    · intro xs rest hf
      cases xs with
      | nil =>
        rw [show printElemsChars [] ++ rest = ']' :: rest from rfl]
        exact parseElems_rbrack F rest
      | cons x xs' =>
        obtain ⟨c, t, hct, hws, hrb⟩ := printChars_head x
        cases xs' with
        | nil =>
          have hsh : printElemsChars [x] ++ rest = c :: (t ++ (']' :: rest)) := by
            rw [printElemsChars_cons, hct]
            simp [List.append_assoc]
          rw [hsh]
          rw [parseElems_step F c _ hws hrb]
          rw [← hsh]
          exact ihEL [x] rest (by simp) (by omega)
        | cons y ys =>
          have hsh : printElemsChars (x :: y :: ys) ++ rest =
              c :: (t ++ (',' :: (printElemsChars (y :: ys) ++ rest))) := by
            rw [printElemsChars_cons, hct]
            simp [List.append_assoc]
          rw [hsh]
          rw [parseElems_step F c _ hws hrb]
          rw [← hsh]
          exact ihEL (x :: y :: ys) rest (by simp) (by omega)
    · intro xs rest hne hf
      cases xs with
      | nil => exact absurd rfl hne
      | cons x xs' =>
        have hx1 : 1 ≤ (printChars x).length := by
          obtain ⟨c, t, hct, _, _⟩ := printChars_head x
          rw [hct]
          simp
        cases xs' with
        | nil =>
          have hsh : printElemsChars [x] ++ rest = printChars x ++ (']' :: rest) := by
            rw [printElemsChars_cons]
            simp [List.append_assoc]
          have hlen := congrArg List.length hsh
          simp only [List.length_append, List.length_cons] at hlen
          have hbx : 2 * (printChars x).length ≤ F := by omega
          rw [hsh]
          unfold parseElemsLoop
          rw [ihV x (']' :: rest) hbx (by rfl)]
          dsimp only
          rw [skipWs_cons _ (by decide)]
          dsimp only
          rw [if_neg (by decide : ¬((']' : Char) = ',')), if_pos rfl]
        | cons y ys =>
          have hsh : printElemsChars (x :: y :: ys) ++ rest =
              printChars x ++ (',' :: (printElemsChars (y :: ys) ++ rest)) := by
            rw [printElemsChars_cons]
            simp [List.append_assoc]
          have hlen := congrArg List.length hsh
          simp only [List.length_append, List.length_cons] at hlen
          have hbx : 2 * (printChars x).length ≤ F := by omega
          have hby : 2 * (printElemsChars (y :: ys)).length ≤ F := by omega
          rw [hsh]
          unfold parseElemsLoop
          rw [ihV x (',' :: (printElemsChars (y :: ys) ++ rest)) hbx (by rfl)]
          dsimp only
          rw [skipWs_cons _ (by decide)]
          dsimp only
          rw [if_pos rfl]
          rw [ihEL (y :: ys) rest (by simp) hby]
    · intro fs rest hf
      cases fs with
      | nil =>
        rw [show printFieldsChars [] ++ rest = rbrace :: rest from rfl]
        exact parseFieldsHead_rbrace F rest
      | cons kv fs' =>
        rcases kv with ⟨k, v⟩
        cases fs' with
        | nil =>
          have hsh : printFieldsChars [(k, v)] ++ rest =
              '"' :: ((escBody k.data ++ ['"']) ++ (':' :: (printChars v ++ (rbrace :: rest)))) := by
            rw [printFieldsChars_cons]
            simp [printStrChars, List.append_assoc]
          rw [hsh]
          rw [parseFieldsHead_step]
          rw [← hsh]
          exact ihFL [(k, v)] rest (by simp) (by omega)
        | cons g gs =>
          have hsh : printFieldsChars ((k, v) :: g :: gs) ++ rest =
              '"' :: ((escBody k.data ++ ['"']) ++ (':' :: (printChars v ++
                (',' :: (printFieldsChars (g :: gs) ++ rest))))) := by
            rw [printFieldsChars_cons]
            simp [printStrChars, List.append_assoc]
          rw [hsh]
          rw [parseFieldsHead_step]
          rw [← hsh]
          exact ihFL ((k, v) :: g :: gs) rest (by simp) (by omega)
    · intro fs rest hne hf
      cases fs with
      | nil => exact absurd rfl hne
      | cons kv fs' =>
        rcases kv with ⟨k, v⟩
        cases fs' with
        | nil =>
          have hsh : printFieldsChars [(k, v)] ++ rest =
              '"' :: (escBody k.data ++ ('"' :: (':' :: (printChars v ++ (rbrace :: rest))))) := by
            rw [printFieldsChars_cons]
            simp [printStrChars, List.append_assoc]
          have hlen := congrArg List.length hsh
          simp only [List.length_append, List.length_cons] at hlen
          have hbv : 2 * (printChars v).length ≤ F := by omega
          rw [hsh]
          unfold parseFieldsLoop
          rw [skipWs_cons _ (by decide)]
          dsimp only
          rw [if_pos rfl]
          rw [parseStrBody_escBody k.data (':' :: (printChars v ++ (rbrace :: rest)))]
          dsimp only
          rw [skipWs_cons _ (by decide)]
          dsimp only
          rw [if_pos rfl]
          rw [ihV v (rbrace :: rest) hbv (by rfl)]
          dsimp only
          rw [skipWs_cons _ (by decide)]
          dsimp only
          rw [if_neg (by decide : ¬(rbrace = ',')), if_pos rfl]
        | cons g gs =>
          have hsh : printFieldsChars ((k, v) :: g :: gs) ++ rest =
              '"' :: (escBody k.data ++ ('"' :: (':' :: (printChars v ++
                (',' :: (printFieldsChars (g :: gs) ++ rest)))))) := by
            rw [printFieldsChars_cons]
            simp [printStrChars, List.append_assoc]
          have hlen := congrArg List.length hsh
          simp only [List.length_append, List.length_cons] at hlen
          have hbv : 2 * (printChars v).length ≤ F := by omega
          have hbg : 2 * (printFieldsChars (g :: gs)).length ≤ F := by omega
          rw [hsh]
          unfold parseFieldsLoop
          rw [skipWs_cons _ (by decide)]
          dsimp only
          rw [if_pos rfl]
          rw [parseStrBody_escBody k.data
            (':' :: (printChars v ++ (',' :: (printFieldsChars (g :: gs) ++ rest))))]
          dsimp only
          rw [skipWs_cons _ (by decide)]
          dsimp only
          rw [if_pos rfl]
          rw [ihV v (',' :: (printFieldsChars (g :: gs) ++ rest)) hbv (by rfl)]
          dsimp only
          rw [skipWs_cons _ (by decide)]
          dsimp only
          rw [if_pos rfl]
          rw [ihFL (g :: gs) rest (by simp) hbg]

/-- Decoding an encoded record returns the record unchanged. -/
theorem decode_encode (v : Json) : decode (encode v) = some v := by
  unfold decode encode
  have h := (parse_print_inversion (2 * (printChars v).length + 2)).1 v []
    (by omega) rfl
  rw [List.append_nil] at h
  rw [show (String.mk (printChars v)).data = printChars v from rfl]
  rw [h]
  rfl

/-- A letter hexadecimal digit prints with the expected code. -/
theorem hex_char_toNat (m : Nat) (h1 : 10 ≤ m) (h2 : m < 16) :
    (Char.ofNat (87 + m)).toNat = 87 + m := by
  interval_cases m <;> decide

/-- Every character an escape emits is a printable character (code at
least 32). -/
theorem escapeChar_ge_32 (c : Char) : ∀ ch ∈ escapeChar c, 32 ≤ ch.toNat := by
  intro ch hch
  by_cases hq : c = '"'
  · subst hq
    rw [show escapeChar '"' = ['\\', '"'] from by decide] at hch
    simp only [List.mem_cons, List.mem_singleton] at hch
    rcases hch with h | h | h
    · subst h; decide
    · subst h; decide
    · simp at h
  · by_cases hbs : c = '\\'
    · subst hbs
      rw [show escapeChar '\\' = ['\\', '\\'] from by decide] at hch
      simp only [List.mem_cons, List.mem_singleton] at hch
      rcases hch with h | h | h
      · subst h; decide
      · subst h; decide
      · simp at h
    · by_cases hctl : c.toNat < 32
      · have hesc : escapeChar c = ['\\', 'u', '0', '0', Char.ofNat (48 + c.toNat / 16),
            Char.ofNat (if c.toNat % 16 < 10 then 48 + c.toNat % 16 else 87 + c.toNat % 16)] := by
          simp [escapeChar, hq, hbs, hctl, show c.toNat / 16 < 10 by omega]
        rw [hesc] at hch
        simp only [List.mem_cons, List.mem_singleton] at hch
        rcases hch with h | h | h | h | h | h | h
        · subst h; decide
        · subst h; decide
        · subst h; decide
        · subst h; decide
        · subst h
          rw [(digit_char_spec (c.toNat / 16) (by omega)).2]
          omega
        · subst h
          by_cases hlo : c.toNat % 16 < 10
          · rw [if_pos hlo, (digit_char_spec (c.toNat % 16) hlo).2]
            omega
          · rw [if_neg hlo, hex_char_toNat (c.toNat % 16) (by omega) (by omega)]
            omega
        · simp at h
      · rw [show escapeChar c = [c] from by simp [escapeChar, hq, hbs, hctl]] at hch
        simp only [List.mem_singleton] at hch
        subst hch
        omega

/-- Every character of an escaped string body is printable. -/
theorem escBody_ge_32 (l : List Char) : ∀ ch ∈ escBody l, 32 ≤ ch.toNat := by
  induction l with
  | nil => intro ch hch; simp [escBody] at hch
  | cons c l' ih =>
    intro ch hch
    rw [show escBody (c :: l') = escapeChar c ++ escBody l' from rfl] at hch
    rcases List.mem_append.mp hch with h | h
    · exact escapeChar_ge_32 c ch h
    · exact ih ch h

/-- Every character of a printed string literal is printable. -/
theorem printStrChars_ge_32 (s : String) : ∀ ch ∈ printStrChars s, 32 ≤ ch.toNat := by
  intro ch hch
  rw [show printStrChars s = '"' :: (escBody s.data ++ ['"']) from rfl] at hch
  rcases List.mem_cons.mp hch with h | h
  · subst h; decide
  · rcases List.mem_append.mp h with h2 | h2
    · exact escBody_ge_32 s.data ch h2
    · simp only [List.mem_singleton] at h2; subst h2; decide

/-- Every character of a printed integer is printable. -/
theorem printIntChars_ge_32 (n : Int) : ∀ ch ∈ printIntChars n, 32 ≤ ch.toNat := by
  intro ch hch
  obtain ⟨hval, hdig, hne⟩ := natToChars_spec n.natAbs
  by_cases hneg : n < 0
  · rw [show printIntChars n = '-' :: natToChars n.natAbs from by simp [printIntChars, hneg]] at hch
    rcases List.mem_cons.mp hch with h | h
    · subst h; decide
    · have := hdig ch h; omega
  · rw [show printIntChars n = natToChars n.natAbs from by simp [printIntChars, hneg]] at hch
    have := hdig ch hch; omega

/-- Every character of printed array elements is printable, given that
every element prints printable characters. -/
theorem printElemsChars_mem (xs : List Json)
    (hx : ∀ x ∈ xs, ∀ ch ∈ printChars x, 32 ≤ ch.toNat) :
    ∀ ch ∈ printElemsChars xs, 32 ≤ ch.toNat := by
  induction xs with
  | nil =>
    intro ch hch
    rw [show printElemsChars [] = [']'] from rfl] at hch
    simp only [List.mem_singleton] at hch
    subst hch; decide
  | cons x xs' ih =>
    cases xs' with
    | nil =>
      intro ch hch
      rw [show printElemsChars [x] = printChars x ++ [']'] from by rw [printElemsChars_cons]] at hch
      rcases List.mem_append.mp hch with h | h
      · exact hx x (List.mem_cons_self _ _) ch h
      · simp only [List.mem_singleton] at h; subst h; decide
    | cons y ys =>
      intro ch hch
      rw [show printElemsChars (x :: y :: ys) =
          printChars x ++ (',' :: printElemsChars (y :: ys)) from by
        rw [printElemsChars_cons]] at hch
      rcases List.mem_append.mp hch with h | h
      · exact hx x (List.mem_cons_self _ _) ch h
      · rcases List.mem_cons.mp h with h1 | h2
        · subst h1; decide
        · exact ih (fun x2 hx2 => hx x2 (List.mem_cons_of_mem _ hx2)) ch h2

/-- Every character of printed object members is printable, given that
every member value prints printable characters. -/
theorem printFieldsChars_mem (fs : List (String × Json))
    (hx : ∀ kv ∈ fs, ∀ ch ∈ printChars kv.2, 32 ≤ ch.toNat) :
    ∀ ch ∈ printFieldsChars fs, 32 ≤ ch.toNat := by
  induction fs with
  | nil =>
    intro ch hch
    rw [show printFieldsChars [] = [rbrace] from rfl] at hch
    simp only [List.mem_singleton] at hch
    subst hch; decide
  | cons kv fs' ih =>
    rcases kv with ⟨k, v⟩
    cases fs' with
    | nil =>
      intro ch hch
      rw [show printFieldsChars [(k, v)] =
          printStrChars k ++ ':' :: printChars v ++ [rbrace] from by
        rw [printFieldsChars_cons]] at hch
      rcases List.mem_append.mp hch with h | h
      · rcases List.mem_append.mp h with h2 | h2
        · exact printStrChars_ge_32 k ch h2
        · rcases List.mem_cons.mp h2 with h3 | h3
          · subst h3; decide
          · exact hx (k, v) (List.mem_cons_self _ _) ch h3
      · simp only [List.mem_singleton] at h; subst h; decide
    | cons g gs =>
      intro ch hch
      rw [show printFieldsChars ((k, v) :: g :: gs) =
          printStrChars k ++ ':' :: printChars v ++ (',' :: printFieldsChars (g :: gs)) from by
        rw [printFieldsChars_cons]] at hch
      rcases List.mem_append.mp hch with h | h
      · rcases List.mem_append.mp h with h2 | h2
        · exact printStrChars_ge_32 k ch h2
        · rcases List.mem_cons.mp h2 with h3 | h3
          · subst h3; decide
          · exact hx (k, v) (List.mem_cons_self _ _) ch h3
      · rcases List.mem_cons.mp h with h1 | h2
        · subst h1; decide
        · exact ih (fun kv2 hkv2 => hx kv2 (List.mem_cons_of_mem _ hkv2)) ch h2

/-- Every character of a printed value is printable (code at least 32),
by strong induction on the size of the value. -/
theorem printChars_ge_32 (N : Nat) :
    ∀ v : Json, sizeOf v ≤ N → ∀ ch ∈ printChars v, 32 ≤ ch.toNat := by
  induction N with
  | zero =>
    intro v h
    cases v <;> simp at h
  | succ N ihN =>
    intro v hv ch hch
    cases v with
    | null =>
      rw [show printChars Json.null = ['n', 'u', 'l', 'l'] from rfl] at hch
      simp only [List.mem_cons, List.mem_singleton] at hch
      rcases hch with h | h | h | h | h
      · subst h; decide
      · subst h; decide
      · subst h; decide
      · subst h; decide
      · simp at h
    | bool b =>
      cases b with
      | true =>
        rw [show printChars (Json.bool true) = ['t', 'r', 'u', 'e'] from rfl] at hch
        simp only [List.mem_cons, List.mem_singleton] at hch
        rcases hch with h | h | h | h | h
        · subst h; decide
        · subst h; decide
        · subst h; decide
        · subst h; decide
        · simp at h
      | false =>
        rw [show printChars (Json.bool false) = ['f', 'a', 'l', 's', 'e'] from rfl] at hch
        simp only [List.mem_cons, List.mem_singleton] at hch
        rcases hch with h | h | h | h | h | h
        · subst h; decide
        · subst h; decide
        · subst h; decide
        · subst h; decide
        · subst h; decide
        · simp at h
    | num n => exact printIntChars_ge_32 n ch hch
    | str s => exact printStrChars_ge_32 s ch hch
    | arr xs =>
      have helem : ∀ x ∈ xs, ∀ ch2 ∈ printChars x, 32 ≤ ch2.toNat := by
        intro x hx
        apply ihN
        have h1 := List.sizeOf_lt_of_mem hx
        have h2 : sizeOf (Json.arr xs) = 1 + sizeOf xs := by simp
        omega
      rw [show printChars (Json.arr xs) = '[' :: printElemsChars xs from rfl] at hch
      rcases List.mem_cons.mp hch with h | h
      · subst h; decide
      · exact printElemsChars_mem xs helem ch h
    | obj fs =>
      have hfld : ∀ kv ∈ fs, ∀ ch2 ∈ printChars kv.2, 32 ≤ ch2.toNat := by
        intro kv hkv
        apply ihN
        have h1 := List.sizeOf_lt_of_mem hkv
        have h2 : sizeOf (Json.obj fs) = 1 + sizeOf fs := by simp
        rcases kv with ⟨k2, v2⟩
        have h3 : sizeOf ((k2, v2) : String × Json) = 1 + sizeOf k2 + sizeOf v2 := by simp
        dsimp only
        omega
      rw [show printChars (Json.obj fs) = lbrace :: printFieldsChars fs from rfl] at hch
      rcases List.mem_cons.mp hch with h | h
      · subst h; decide
      · exact printFieldsChars_mem fs hfld ch h

/-- Every character of an encoded record is printable. -/
theorem encode_ge_32 (v : Json) : ∀ ch ∈ (encode v).data, 32 ≤ ch.toNat :=
  fun ch hch => printChars_ge_32 (sizeOf v) v (le_refl _) ch hch

/-- C9: for every decodable line, encoding the decoded record yields a
single line of text with no embedded line break (no newline and no
carriage return; in fact no control character at all), and decoding the
encoded line returns a structurally equal record. -/
theorem C9_encode_roundtrip (line : String) (v : Json) (_hdec : decode line = some v) :
    (∀ ch ∈ (encode v).data, ¬(ch = '\n') ∧ ¬(ch = Char.ofNat 13)) ∧
    decode (encode v) = some v := by
  refine ⟨?_, decode_encode v⟩
  intro ch hch
  have h32 := encode_ge_32 v ch hch
  constructor
  · intro hc; subst hc; revert h32; decide
  · intro hc; subst hc; revert h32; decide

/-- Witness for C9 at the first spec example line. -/
theorem C9_witness :
    decode exLineA = some exTxA ∧
    ((∀ ch ∈ (encode exTxA).data, ¬(ch = '\n') ∧ ¬(ch = Char.ofNat 13)) ∧
      decode (encode exTxA) = some exTxA) :=
  ⟨rfl, C9_encode_roundtrip exLineA exTxA rfl⟩
